import Mathlib

/-!
Shallow embedding of `src/lib/ultraqueue/ultraqueue.c`, a hybrid RAM/disk
FIFO queue.  The C file keeps a global circular buffer of strings
(`ram_buffer`, `ram_start`, `ram_end`) together with one on-disk overflow
file of newline-terminated records.  We model the mutable globals plus the
disk file as an explicit state record; C strings are `List Char`; C `int`
return codes become `Int`; the fallible I/O calls (`fopen`, `fputs`,
`fputc`, `tmpfile`) are driven by explicit oracles saying which call, if
any, fails.
-/

def MAX_LINE : Nat := 4096

def RAM_BUFFER_CAPACITY : Nat := 10000

/-- Global state of ultraqueue.c: the circular RAM buffer (a slot is `none`
where the C array holds NULL), the two cursors, and the contents of the
single backing disk file (`none` when the file does not exist).  The ring
modulus (the C macro `RAM_BUFFER_CAPACITY`) is passed to each operation as
a parameter `m`, instantiated with `RAM_BUFFER_CAPACITY` in the deployed
code. -/
structure QState where
  ram_buffer : Nat → Option (List Char)
  ram_start : Nat
  ram_end : Nat
  disk : Option (List Char)

/-- State at process start: zero-initialised cursors, NULL slots, no file. -/
def initQState : QState := ⟨fun _ => none, 0, 0, none⟩

/-- C `is_ram_full`: `((ram_end + 1) % RAM_BUFFER_CAPACITY) == ram_start`. -/
def is_ram_full (m : Nat) (s : QState) : Bool :=
  (s.ram_end + 1) % m == s.ram_start

/-- C `is_ram_empty`: `ram_start == ram_end`. -/
def is_ram_empty (s : QState) : Bool :=
  s.ram_start == s.ram_end

/-- C `push_ram`: store a copy of `item` at `ram_end` and advance `ram_end`
modulo the capacity; `-1` if the ring is full.  (The C `-2` branch is a
`malloc` failure of `strdup`, which has no counterpart in the model.) -/
def push_ram (m : Nat) (item : List Char) (s : QState) : Int × QState :=
  if is_ram_full m s then (-1, s)
  else
    (0, { s with
      ram_buffer := fun i => if i = s.ram_end then some item else s.ram_buffer i,
      ram_end := (s.ram_end + 1) % m })

/-- C `pop_ram`: `strncpy` the head item into a caller buffer of
`buf_size` bytes (so at most `buf_size - 1` characters are returned, the
last byte being the NUL terminator), free the slot, advance `ram_start`.
Returns the written buffer contents alongside the C return code. -/
def pop_ram (m : Nat) (buf_size : Nat) (s : QState) : Int × Option (List Char) × QState :=
  if is_ram_empty s then (-1, none, s)
  else
    let it := (s.ram_buffer s.ram_start).getD []
    (0, some (it.take (buf_size - 1)), { s with
      ram_buffer := fun i => if i = s.ram_start then none else s.ram_buffer i,
      ram_start := (s.ram_start + 1) % m })

/-- I/O oracle for `spill_to_disk`: either every call succeeds, or
`fopen(path, "a")` fails, or the `fputs` (resp. `fputc`) of the item at
loop iteration `k` fails. -/
inductive SpillFx where
  | ok : SpillFx
  | openFail : SpillFx
  | putsFail : Nat → SpillFx
  | putcFail : Nat → SpillFx
deriving DecidableEq

/-- The `while (!is_ram_empty())` loop of C `spill_to_disk`, written with
the iteration count `n` made explicit (for cursors below the modulus the C
loop runs exactly `(ram_end + m - ram_start) % m` times).  Iteration `j`:
`fputs` the head item (appending it to the file), `fputc` the newline,
free the slot and advance `ram_start`; on `fputs` failure return `-2` with
nothing of this item written, on `fputc` failure return `-3` with the item
written but unterminated.  When the loop exits the C code resets
`ram_start = ram_end = 0` and returns `0`. -/
def spillLoop (m : Nat) (fx : SpillFx) : Nat → Nat → QState → Int × QState
  | _, 0, s => (0, { s with ram_start := 0, ram_end := 0 })
  | j, n + 1, s =>
    if fx = SpillFx.putsFail j then (-2, s)
    else
      let it := (s.ram_buffer s.ram_start).getD []
      if fx = SpillFx.putcFail j then
        (-3, { s with disk := some (s.disk.getD [] ++ it) })
      else
        spillLoop m fx (j + 1) n
          { s with
            disk := some (s.disk.getD [] ++ it ++ ['\n']),
            ram_buffer := fun i => if i = s.ram_start then none else s.ram_buffer i,
            ram_start := (s.ram_start + 1) % m }

/-- Number of occupied RAM slots, as computed by C `ultraqueue_len`:
`(ram_end + RAM_BUFFER_CAPACITY - ram_start) % RAM_BUFFER_CAPACITY`. -/
def ramCount (m : Nat) (s : QState) : Nat :=
  (s.ram_end + m - s.ram_start) % m

/-- C `spill_to_disk`: `fopen(path, "a")` (which creates the file if it is
missing, hence `some (getD [])`), then the append loop. -/
def spill_to_disk (m : Nat) (fx : SpillFx) (s : QState) : Int × QState :=
  if fx = SpillFx.openFail then (-1, s)
  else spillLoop m fx 0 (ramCount m s) { s with disk := some (s.disk.getD []) }

/-- C `ultraqueue_push`: try `push_ram`; on `-1` (ring full) spill the
whole RAM tier to disk, propagating a spill error verbatim, otherwise
retry `push_ram` on the now-empty ring. -/
def ultraqueue_push (m : Nat) (fx : SpillFx) (item : List Char) (s : QState) : Int × QState :=
  let r := push_ram m item s
  if r.1 = -1 then
    let sp := spill_to_disk m fx r.2
    if sp.1 ≠ 0 then (sp.1, sp.2)
    else push_ram m item sp.2
  else r

/-- C `fgets(line, n + something)` reading at most `n` characters from `s`:
stops after (and includes) a newline, or after `n` characters.  Returns the
line read and the remaining stream. -/
def fgetsLine : Nat → List Char → List Char × List Char
  | _, [] => ([], [])
  | 0, s => ([], s)
  | n + 1, c :: rest =>
    if c = '\n' then ([c], rest)
    else
      let p := fgetsLine n rest
      (c :: p.1, p.2)

/-- The `while (fgets(line, MAX_LINE, fp))` read loop: split the stream
into successive `fgets` lines of at most `n` characters.  Each iteration
consumes at least one character (for `n ≥ 1`), so fuel `s.length`
suffices; see `readLinesF_join`. -/
def readLinesF (n : Nat) : Nat → List Char → List (List Char)
  | 0, _ => []
  | _ + 1, [] => []
  | fuel + 1, c :: rest =>
    let p := fgetsLine n (c :: rest)
    p.1 :: readLinesF n fuel p.2

/-- All `fgets` lines of a stream, with the fuel instantiated. -/
def readLines (n : Nat) (s : List Char) : List (List Char) :=
  readLinesF n s.length s

/-- The trailing-newline strip in C `ultraqueue_pop`:
`if (len > 0 && out_buf[len-1] == '\n') out_buf[len-1] = '\0'`. -/
def stripNewline (l : List Char) : List Char :=
  if l.getLast? = some '\n' then l.dropLast else l

/-- I/O oracle for `ultraqueue_pop`: whether `fopen(path, "r")` succeeds
(on an existing file), whether `tmpfile()` succeeds, and whether the
rewriting `fopen(path, "w")` succeeds. -/
structure PopFx where
  openReadOk : Bool
  tmpfileOk : Bool
  openWriteOk : Bool
deriving DecidableEq

/-- The all-calls-succeed pop oracle. -/
def allOk : PopFx := ⟨true, true, true⟩

/-- C `ultraqueue_pop`: try `pop_ram`; if the ring is empty fall back to
the disk file.  `fopen(path, "r")` failure (file missing or I/O error)
returns `-1`; `tmpfile()` failure returns `-2`.  Otherwise the `fgets`
loop takes the first line as the popped item (truncated by `strncpy` to
`buf_size - 1` characters, then newline-stripped) and copies every later
line to the temp file; the rewriting `fopen(path, "w")` failure returns
`-3` (the original file untouched); otherwise the temp lines are copied
back (an `fgets`/`fputs` loop, content-preserving by `readLinesF_join`),
and the result is `0` when a first line was found, else `-4`. -/
def ultraqueue_pop (m : Nat) (fx : PopFx) (buf_size : Nat) (s : QState) :
    Int × Option (List Char) × QState :=
  let r := pop_ram m buf_size s
  if r.1 = 0 then r
  else
    match s.disk, fx.openReadOk with
    | none, _ => (-1, none, s)
    | some _, false => (-1, none, s)
    | some d, true =>
      if fx.tmpfileOk = false then (-2, none, s)
      else
        match readLines (MAX_LINE - 1) d with
        | [] =>
          if fx.openWriteOk = false then (-3, none, s)
          else (-4, none, { s with disk := some [] })
        | f :: rest =>
          let out := stripNewline (f.take (buf_size - 1))
          if fx.openWriteOk = false then (-3, some out, s)
          else (0, some out, { s with disk := some rest.flatten })

/-- C `ultraqueue_len`: occupied RAM slots plus, when `fopen(path, "r")`
succeeds, the number of newline characters in the file; a missing file, or
an `fopen` failure on an existing file, contributes zero. -/
def ultraqueue_len (m : Nat) (openOk : Bool) (s : QState) : Int :=
  match s.disk, openOk with
  | some d, true => ((ramCount m s + d.count '\n' : Nat) : Int)
  | _, _ => ((ramCount m s : Nat) : Int)

/-- The logical FIFO content of the RAM tier, head first. -/
def ramList (m : Nat) (s : QState) : List (List Char) :=
  (List.range (ramCount m s)).map fun j => (s.ram_buffer ((s.ram_start + j) % m)).getD []

/-- The items read out by the spill loop: slot at `st`, then `(st+1) % m`,
and so on, `n` slots in all. -/
def drain (m : Nat) (buf : Nat → Option (List Char)) : Nat → Nat → List (List Char)
  | _, 0 => []
  | st, n + 1 => (buf st).getD [] :: drain m buf ((st + 1) % m) n

/-- A list of records serialised the way the spill writes them: each item
followed by one newline. -/
def joinNL (l : List (List Char)) : List Char :=
  (l.map (fun r => r ++ ['\n'])).flatten

/-- A sequence of pushes (the states threaded through `ultraqueue_push`). -/
def pushAll (m : Nat) (fx : SpillFx) (items : List (List Char)) (s : QState) : QState :=
  items.foldl (fun st it => (ultraqueue_push m fx it st).2) s

/-- Both ring cursors lie below the modulus. -/
def RamInv (m : Nat) (s : QState) : Prop :=
  s.ram_start < m ∧ s.ram_end < m

/-! ### Basic lemmas about the `fgets` model -/

theorem fgetsLine_zero (s : List Char) : fgetsLine 0 s = ([], s) := by
  cases s <;> rfl

theorem fgetsLine_append (n : Nat) (s : List Char) :
    (fgetsLine n s).1 ++ (fgetsLine n s).2 = s := by
  induction s generalizing n with
  | nil => cases n <;> rfl
  | cons c rest ih =>
    cases n with
    | zero => rfl
    | succ k =>
      by_cases hc : c = '\n'
      · simp [fgetsLine, hc]
      · simp [fgetsLine, hc, ih]

theorem fgetsLine_rest_length_le (n : Nat) (s : List Char) :
    (fgetsLine n s).2.length ≤ s.length := by
  induction s generalizing n with
  | nil => cases n <;> simp [fgetsLine]
  | cons c rest ih =>
    cases n with
    | zero => simp [fgetsLine]
    | succ k =>
      by_cases hc : c = '\n'
      · simp [fgetsLine, hc]
      · simpa [fgetsLine, hc] using Nat.le_succ_of_le (ih k)

theorem fgetsLine_progress (n : Nat) (c : Char) (rest : List Char) :
    (fgetsLine (n + 1) (c :: rest)).2.length ≤ rest.length := by
  by_cases hc : c = '\n'
  · simp [fgetsLine, hc]
  · simpa [fgetsLine, hc] using fgetsLine_rest_length_le n rest

theorem readLinesF_nil (n fuel : Nat) : readLinesF n fuel [] = [] := by
  cases fuel <;> rfl

/-- The temp-file copy loop of `ultraqueue_pop` (an `fgets`/`fputs` loop)
is content-preserving: flattening the lines read from a stream gives back
the stream, provided the fuel covers the stream length. -/
theorem readLinesF_join (n fuel : Nat) (s : List Char)
    (hfuel : s.length ≤ fuel) : (readLinesF (n + 1) fuel s).flatten = s := by
  induction fuel generalizing s with
  | zero =>
    have : s = [] := List.eq_nil_of_length_eq_zero (Nat.le_zero.mp hfuel)
    simp [this, readLinesF]
  | succ f ih =>
    cases s with
    | nil => simp [readLinesF]
    | cons c rest =>
      have hprog : (fgetsLine (n + 1) (c :: rest)).2.length ≤ rest.length :=
        fgetsLine_progress n c rest
      have hfuel' : (fgetsLine (n + 1) (c :: rest)).2.length ≤ f :=
        le_trans hprog (Nat.le_of_succ_le_succ hfuel)
      simp only [readLinesF, List.flatten_cons, ih _ hfuel']
      exact fgetsLine_append (n + 1) (c :: rest)

theorem readLines_join (n : Nat) (s : List Char) :
    (readLines (n + 1) s).flatten = s :=
  readLinesF_join n s.length s (le_refl _)

/-! ### Claim theorems -/

/-- Claim C1: the source violates global FIFO order across tiers.  With
capacity 3 (ring modulus 3, so two usable slots) pushing `a`, `b`, `c`
spills the older items `a`, `b` to disk and keeps the newer `c` in RAM;
the next two pops then return `c` (the newest item, from RAM) and then
`a` — not `a` then `b` as the claim requires, so an older item already on
disk (`a`) is returned after a newer item still in RAM (`c`). -/
theorem fifo_cross_tier_violation :
    (pushAll 3 SpillFx.ok [['a'], ['b'], ['c']] initQState).disk =
      some ['a', '\n', 'b', '\n'] ∧
    (ultraqueue_pop 3 allOk 16
      (pushAll 3 SpillFx.ok [['a'], ['b'], ['c']] initQState)).1 = 0 ∧
    (ultraqueue_pop 3 allOk 16
      (pushAll 3 SpillFx.ok [['a'], ['b'], ['c']] initQState)).2.1 = some ['c'] ∧
    (ultraqueue_pop 3 allOk 16
      (ultraqueue_pop 3 allOk 16
        (pushAll 3 SpillFx.ok [['a'], ['b'], ['c']] initQState)).2.2).2.1 =
      some ['a'] := by
  decide

/-- Claim C4: if a push finds the RAM ring full and the triggered spill
fails (open or write error), the push returns exactly the spill's error
result and final state; since `spill_to_disk` never sees the new item, the
item is stored in neither RAM nor disk — formally, the outcome of the push
is the same for every pushed item. -/
theorem push_spill_failure (m : Nat) (fx : SpillFx) (item : List Char) (s : QState)
    (hfull : is_ram_full m s = true) (hfail : (spill_to_disk m fx s).1 ≠ 0) :
    ultraqueue_push m fx item s = spill_to_disk m fx s ∧
    (∀ item', ultraqueue_push m fx item' s = ultraqueue_push m fx item s) := by
  have hp : ∀ it : List Char, push_ram m it s = (-1, s) := by
    intro it; simp [push_ram, hfull]
  constructor
  · simp [ultraqueue_push, hp, hfail]
  · intro item'; simp [ultraqueue_push, hp, hfail]

/-- A concrete full ring for modulus 3: slots 0 and 1 occupied. -/
def sFull3 : QState :=
  ⟨fun i => if i = 0 then some ['a'] else if i = 1 then some ['b'] else none, 0, 2, none⟩

theorem push_spill_failure_witness :
    ultraqueue_push 3 SpillFx.openFail ['x'] sFull3 =
      spill_to_disk 3 SpillFx.openFail sFull3 :=
  (push_spill_failure 3 SpillFx.openFail ['x'] sFull3 (by decide) (by decide)).1

/-- Claim C9: `ultraqueue_len` never reports an I/O failure.  Its result is
always nonnegative (never an error code), and when the `fopen` of an
existing disk file fails the disk tier silently counts as zero, making the
result identical to that for an absent disk file or an empty disk file. -/
theorem len_never_io_error (m : Nat) (s : QState) (d : List Char) (b : Bool) :
    0 ≤ ultraqueue_len m b s ∧
    ultraqueue_len m false { s with disk := some d } = ((ramCount m s : Nat) : Int) ∧
    ultraqueue_len m false { s with disk := some d } =
      ultraqueue_len m b { s with disk := none } ∧
    ultraqueue_len m true { s with disk := some [] } =
      ultraqueue_len m false { s with disk := some d } := by
  refine ⟨?_, ?_, ?_, ?_⟩
  · cases hd : s.disk <;> cases b <;> simp [ultraqueue_len, hd]
    positivity
  · simp [ultraqueue_len, ramCount]
  · cases b <;> simp [ultraqueue_len, ramCount]
  · simp [ultraqueue_len, ramCount]

/-- Claim C3, counterexample: popping with empty RAM and *no* disk file
returns `-1`, which is exactly the result an I/O open error on an existing
disk file produces — so the "no item" result for a missing file is not
distinct from an I/O-error result. -/
theorem pop_no_file_error_conflation :
    (ultraqueue_pop 3 allOk 16 initQState).1 = -1 ∧
    (ultraqueue_pop 3 ⟨false, true, true⟩ 16
      { initQState with disk := some ['a', '\n'] }).1 = -1 := by
  decide

/-- Claim C3, amended: with empty RAM, a pop on an existing-but-empty disk
file returns the "no item" code `-4`, which is distinct from the I/O error
codes `-1`, `-2`, `-3`; but a pop with no disk file returns `-1`, the very
value a failing `fopen(path, "r")` on an existing file produces, so the
missing-file "empty" result coincides with an open-error result. -/
theorem pop_empty_contract_amended (m buf_size : Nat) (s : QState)
    (he : is_ram_empty s = true) :
    (s.disk = none → ∀ fx, ultraqueue_pop m fx buf_size s = (-1, none, s)) ∧
    (s.disk = some [] →
      ultraqueue_pop m allOk buf_size s = (-4, none, { s with disk := some [] })) ∧
    (∀ d, ultraqueue_pop m ⟨false, true, true⟩ buf_size { s with disk := some d } =
      (-1, none, { s with disk := some d })) := by
  have hr : pop_ram m buf_size s = (-1, none, s) := by simp [pop_ram, he]
  refine ⟨?_, ?_, ?_⟩
  · intro hd fx; simp [ultraqueue_pop, hr, hd]
  · intro hd
    simp [ultraqueue_pop, hr, hd, allOk, readLines, readLinesF]
  · intro d
    have he' : is_ram_empty { s with disk := some d } = true := he
    have hr' : pop_ram m buf_size { s with disk := some d } =
        (-1, none, { s with disk := some d }) := by simp [pop_ram, he']
    simp [ultraqueue_pop, hr']

theorem pop_empty_contract_amended_witness :
    ultraqueue_pop 3 allOk 16 initQState = (-1, none, initQState) :=
  (pop_empty_contract_amended 3 16 initQState (by decide)).1 rfl allOk

/-! ### Ring-buffer position lemmas -/

theorem mod_shift_ne (m st x : Nat) (_hst : st < m) (hx1 : 1 ≤ x) (hxm : x < m) :
    (st + x) % m ≠ st := by
  intro h
  have hdm := Nat.div_add_mod (st + x) m
  rw [h] at hdm
  have hx : x = m * ((st + x) / m) := by omega
  rcases Nat.eq_zero_or_pos ((st + x) / m) with hq | hq
  · rw [hq] at hx; omega
  · have hm : m * 1 ≤ m * ((st + x) / m) := Nat.mul_le_mul_left m hq
    omega

theorem drain_congr (m : Nat) (buf1 buf2 : Nat → Option (List Char)) :
    ∀ (n st : Nat), st < m →
      (∀ i, i < n → buf1 ((st + i) % m) = buf2 ((st + i) % m)) →
      drain m buf1 st n = drain m buf2 st n := by
  intro n
  induction n with
  | zero => intro st _ _; rfl
  | succ k ih =>
    intro st hst h
    have h0 : buf1 st = buf2 st := by
      have := h 0 (Nat.succ_pos k)
      simpa [Nat.mod_eq_of_lt hst] using this
    have htail : drain m buf1 ((st + 1) % m) k = drain m buf2 ((st + 1) % m) k := by
      refine ih ((st + 1) % m) (Nat.mod_lt _ (by omega)) ?_
      intro i hi
      have := h (1 + i) (by omega)
      simpa [Nat.mod_add_mod, Nat.add_assoc] using this
    simp [drain, h0, htail]

theorem drain_clear (m st n : Nat) (buf : Nat → Option (List Char))
    (hst : st < m) (hn : n + 1 ≤ m) :
    drain m (fun i => if i = st then none else buf i) ((st + 1) % m) n =
      drain m buf ((st + 1) % m) n := by
  refine drain_congr m _ buf n ((st + 1) % m) (Nat.mod_lt _ (by omega)) ?_
  intro i hi
  have hne : (st + 1 + i) % m ≠ st := by
    rw [Nat.add_assoc]
    exact mod_shift_ne m st (1 + i) hst (by omega) (by omega)
  rw [Nat.mod_add_mod]
  simp [hne]

theorem drain_eq_map (m : Nat) (buf : Nat → Option (List Char)) :
    ∀ (n st : Nat), st + n ≤ m →
      drain m buf st n = (List.range n).map (fun j => (buf (st + j)).getD []) := by
  intro n
  induction n with
  | zero => intro st _; rfl
  | succ k ih =>
    intro st hst
    rcases Nat.lt_or_ge (st + 1) m with hlt | hge
    · have hmod : (st + 1) % m = st + 1 := Nat.mod_eq_of_lt hlt
      have htail := ih (st + 1) (by omega)
      simp only [drain, hmod, htail, List.range_succ_eq_map, List.map_cons, List.map_map]
      congr 1
      refine List.map_congr_left ?_
      intro j _
      have harith : st + 1 + j = st + (j + 1) := by omega
      simp [Function.comp, harith, Nat.succ_eq_add_one]
    · have hk : k = 0 := by omega
      subst hk
      simp [drain, List.range_succ]

theorem getD_range_map (l : List (List Char)) :
    (List.range l.length).map (fun j => l.getD j []) = l := by
  induction l with
  | nil => rfl
  | cons a t ih =>
    have hmap : List.map ((fun j => (a :: t).getD j []) ∘ Nat.succ) (List.range t.length) =
        List.map (fun j => t.getD j []) (List.range t.length) := by
      refine List.map_congr_left ?_
      intro j _
      simp [Function.comp, Nat.succ_eq_add_one]
    simp only [List.length_cons, List.range_succ_eq_map, List.map_cons, List.map_map, hmap, ih]
    simp

theorem joinNL_count (l : List (List Char)) (h : ∀ r ∈ l, '\n' ∉ r) :
    (joinNL l).count '\n' = l.length := by
  induction l with
  | nil => simp [joinNL]
  | cons r t ih =>
    have hr : '\n' ∉ r := h r (by simp)
    have ht : ∀ x ∈ t, '\n' ∉ x := fun x hx => h x (by simp [hx])
    have hsplit : joinNL (r :: t) = (r ++ ['\n']) ++ joinNL t := by simp [joinNL]
    have hone : List.count '\n' ['\n'] = 1 := rfl
    rw [hsplit, List.count_append, List.count_append, ih ht,
      List.count_eq_zero.mpr hr, hone]
    simp only [List.length_cons]
    omega

/-- A successful run of the spill loop appends the `n` drained items, each
newline-terminated, to the file and resets both cursors to zero. -/
theorem spillLoop_ok (m : Nat) :
    ∀ (n j : Nat) (s : QState) (d : List Char), s.disk = some d →
      s.ram_start < m → n < m →
      ∃ buf, spillLoop m SpillFx.ok j n s =
        (0, ⟨buf, 0, 0, some (d ++ joinNL (drain m s.ram_buffer s.ram_start n))⟩) := by
  intro n
  induction n with
  | zero =>
    intro j s d hd _ _
    obtain ⟨buf, st, en, dsk⟩ := s
    refine ⟨buf, ?_⟩
    simp only at hd
    simp [spillLoop, drain, joinNL, hd]
  | succ k ih =>
    intro j s d hd hst hkm
    obtain ⟨buf, st, en, dsk⟩ := s
    simp only at hd hst
    obtain ⟨buf', heq⟩ := ih (j + 1)
      ⟨fun i => if i = st then none else buf i, (st + 1) % m, en,
        some (d ++ (buf st).getD [] ++ ['\n'])⟩
      (d ++ (buf st).getD [] ++ ['\n']) rfl (Nat.mod_lt _ (by omega)) (by omega)
    refine ⟨buf', ?_⟩
    simp only [spillLoop, reduceCtorEq, if_false, hd, Option.getD_some]
    rw [heq]
    simp only at heq ⊢
    have hclear : drain m (fun i => if i = st then none else buf i) ((st + 1) % m) k =
        drain m buf ((st + 1) % m) k := drain_clear m st k buf hst (by omega)
    rw [hclear]
    simp [drain, joinNL, List.append_assoc]

/-- Pushing a list of items into a ring with `ram_start = 0`, `ram_end = k`
and no disk file, with enough free slots, stores the items in slots
`k, k+1, ...` in order and never touches the disk. -/
theorem pushAll_fill (m : Nat) (fx : SpillFx) :
    ∀ (l : List (List Char)) (k : Nat) (buf : Nat → Option (List Char)),
      k + l.length < m →
      ∃ buf', pushAll m fx l ⟨buf, 0, k, none⟩ = ⟨buf', 0, k + l.length, none⟩ ∧
        (∀ j, j < k → buf' j = buf j) ∧
        (∀ j, k ≤ j → j < k + l.length → buf' j = some (l.getD (j - k) [])) := by
  intro l
  induction l with
  | nil =>
    intro k buf _
    exact ⟨buf, rfl, fun j _ => rfl, fun j h1 h2 => by simp at h2; omega⟩
  | cons it t ih =>
    intro k buf hk
    have hlen : k + t.length + 1 < m := by
      have hk' := hk
      simp only [List.length_cons] at hk'
      omega
    have hk1 : k + 1 < m := by omega
    have hfull : is_ram_full m ⟨buf, 0, k, none⟩ = false := by
      simp [is_ram_full, Nat.mod_eq_of_lt hk1]
    have hpush : ultraqueue_push m fx it ⟨buf, 0, k, none⟩ =
        (0, ⟨fun i => if i = k then some it else buf i, 0, k + 1, none⟩) := by
      simp [ultraqueue_push, push_ram, hfull, Nat.mod_eq_of_lt hk1]
    have hstep : pushAll m fx (it :: t) ⟨buf, 0, k, none⟩ =
        pushAll m fx t ⟨fun i => if i = k then some it else buf i, 0, k + 1, none⟩ := by
      simp [pushAll, hpush]
    obtain ⟨buf', heq, hlo, hhi⟩ :=
      ih (k + 1) (fun i => if i = k then some it else buf i) (by omega)
    refine ⟨buf', ?_, ?_, ?_⟩
    · rw [hstep, heq]
      have harith : k + 1 + t.length = k + (it :: t).length := by
        simp only [List.length_cons]; omega
      rw [harith]
    · intro j hj
      have hb := hlo j (by omega)
      simpa [Nat.ne_of_lt hj] using hb
    · intro j hj1 hj2
      rcases Nat.eq_or_lt_of_le hj1 with hjk | hjk
      · subst hjk
        have hbk := hlo k (by omega)
        simp only [if_pos rfl] at hbk
        rw [hbk]
        simp
      · have hb := hhi j (by omega)
          (by simp only [List.length_cons] at hj2 ⊢; omega)
        rw [hb]
        have harith : j - k = (j - (k + 1)) + 1 := by omega
        rw [harith, List.getD_cons_succ]

/-- Claim C6: starting from the empty queue with no disk file, any
sequence of `N` pushes with `N` below the RAM capacity leaves the length
at exactly `N` and never creates a disk file (whatever the I/O oracles
would have done). -/
theorem capacity_invariant (m : Nat) (fx : SpillFx) (b : Bool)
    (items : List (List Char)) (hN : items.length < m) :
    (pushAll m fx items initQState).disk = none ∧
    ultraqueue_len m b (pushAll m fx items initQState) = (items.length : Int) := by
  obtain ⟨buf', heq, _, _⟩ := pushAll_fill m fx items 0 (fun _ => none) (by omega)
  simp only [Nat.zero_add] at heq
  have heq' : pushAll m fx items initQState = ⟨buf', 0, items.length, none⟩ := heq
  rw [heq']
  have hc : ramCount m ⟨buf', 0, items.length, none⟩ = items.length := by
    simp only [ramCount, Nat.sub_zero]
    rw [Nat.add_mod_right]
    exact Nat.mod_eq_of_lt hN
  exact ⟨rfl, by cases b <;> simp [ultraqueue_len, hc]⟩

theorem capacity_invariant_witness :
    (pushAll 4 SpillFx.ok [['a'], ['b']] initQState).disk = none ∧
    ultraqueue_len 4 true (pushAll 4 SpillFx.ok [['a'], ['b']] initQState) =
      ((2 : Nat) : Int) :=
  capacity_invariant 4 SpillFx.ok true [['a'], ['b']] (by decide)

/-- Claim C2: pushing exactly `capacity` items (`capacity` being the
number of items the RAM ring can hold, i.e. the ring modulus minus one)
into the initially empty queue, and then one more, succeeds, appends all
`capacity` prior items to the disk file newline-terminated in their
original FIFO order, leaves the RAM tier holding only the newest item, and
makes the length `capacity + 1`. -/
theorem spill_correctness (m : Nat) (hm : 2 ≤ m) (l : List (List Char))
    (hl : l.length = m - 1) (hnl : ∀ r ∈ l, '\n' ∉ r) (x : List Char) :
    (ultraqueue_push m SpillFx.ok x (pushAll m SpillFx.ok l initQState)).1 = 0 ∧
    (ultraqueue_push m SpillFx.ok x (pushAll m SpillFx.ok l initQState)).2.disk =
      some (joinNL l) ∧
    ramList m (ultraqueue_push m SpillFx.ok x (pushAll m SpillFx.ok l initQState)).2 =
      [x] ∧
    ultraqueue_len m true
      (ultraqueue_push m SpillFx.ok x (pushAll m SpillFx.ok l initQState)).2 =
      (l.length : Int) + 1 := by
  obtain ⟨buf1, heq1, _, hhi⟩ := pushAll_fill m SpillFx.ok l 0 (fun _ => none) (by omega)
  have hinit : initQState = ⟨fun _ => none, 0, 0, none⟩ := rfl
  have heq1' : pushAll m SpillFx.ok l initQState = ⟨buf1, 0, l.length, none⟩ := by
    rw [hinit]
    simpa using heq1
  have h1m : (1 : Nat) % m = 1 := Nat.mod_eq_of_lt (by omega)
  have hfull : is_ram_full m ⟨buf1, 0, l.length, none⟩ = true := by
    have hlm : l.length + 1 = m := by omega
    simp [is_ram_full, hlm]
  have hpush1 : push_ram m x ⟨buf1, 0, l.length, none⟩ =
      (-1, ⟨buf1, 0, l.length, none⟩) := by
    simp [push_ram, hfull]
  have hcount : ramCount m ⟨buf1, 0, l.length, none⟩ = l.length := by
    simp only [ramCount, Nat.sub_zero]
    rw [Nat.add_mod_right]
    exact Nat.mod_eq_of_lt (by omega)
  have hdrain : drain m buf1 0 l.length = l := by
    rw [drain_eq_map m buf1 l.length 0 (by omega)]
    have hmapc : (List.range l.length).map (fun j => (buf1 (0 + j)).getD []) =
        (List.range l.length).map (fun j => l.getD j []) := by
      refine List.map_congr_left ?_
      intro j hj
      have hj' : j < l.length := List.mem_range.mp hj
      have hb := hhi j (Nat.zero_le j) (by omega)
      simp only [Nat.sub_zero] at hb
      simp only [Nat.zero_add, hb, Option.getD_some]
    rw [hmapc, getD_range_map]
  obtain ⟨buf2, heq2⟩ :=
    spillLoop_ok m l.length 0 ⟨buf1, 0, l.length, some []⟩ [] rfl
      (show (0 : Nat) < m by omega) (show l.length < m by omega)
  have heq2' : spillLoop m SpillFx.ok 0 l.length ⟨buf1, 0, l.length, some []⟩ =
      (0, ⟨buf2, 0, 0, some (joinNL l)⟩) := by
    rw [heq2]
    simp only at heq2 ⊢
    rw [hdrain]
    simp
  have hspd : spill_to_disk m SpillFx.ok ⟨buf1, 0, l.length, none⟩ =
      (0, ⟨buf2, 0, 0, some (joinNL l)⟩) := by
    simp only [spill_to_disk, reduceCtorEq, if_false, hcount]
    exact heq2'
  have hnotfull2 : is_ram_full m ⟨buf2, 0, 0, some (joinNL l)⟩ = false := by
    simp [is_ram_full, h1m]
  have hpush2 : push_ram m x ⟨buf2, 0, 0, some (joinNL l)⟩ =
      (0, ⟨fun i => if i = 0 then some x else buf2 i, 0, 1, some (joinNL l)⟩) := by
    simp [push_ram, hnotfull2, h1m]
  have hfinal : ultraqueue_push m SpillFx.ok x ⟨buf1, 0, l.length, none⟩ =
      (0, ⟨fun i => if i = 0 then some x else buf2 i, 0, 1, some (joinNL l)⟩) := by
    simp [ultraqueue_push, hpush1, hspd, hpush2]
  have hc3 : ramCount m
      ⟨fun i => if i = 0 then some x else buf2 i, 0, 1, some (joinNL l)⟩ = 1 := by
    simp only [ramCount, Nat.sub_zero]
    rw [Nat.add_mod_right]
    exact h1m
  rw [heq1', hfinal]
  refine ⟨rfl, rfl, ?_, ?_⟩
  · have hr1 : List.range 1 = [0] := rfl
    simp [ramList, hc3, hr1, Nat.zero_mod]
  · simp [ultraqueue_len, hc3, joinNL_count l hnl]
    ring

theorem spill_correctness_witness :
    (ultraqueue_push 3 SpillFx.ok ['c']
      (pushAll 3 SpillFx.ok [['a'], ['b']] initQState)).2.disk =
      some (joinNL [['a'], ['b']]) :=
  (spill_correctness 3 (by decide) [['a'], ['b']] (by decide) (by decide) ['c']).2.1

/-! ### Newline-strip and record-parsing lemmas -/

theorem stripNewline_of_not_mem (l : List Char) (h : '\n' ∉ l) :
    stripNewline l = l := by
  rcases List.eq_nil_or_concat l with hnil | ⟨l', a, hcat⟩
  · simp [hnil, stripNewline]
  · subst hcat
    have ha : a ≠ '\n' := by
      intro e
      exact h (by simp [e])
    simp [stripNewline, List.getLast?_concat, ha]

theorem stripNewline_concat_newline (l : List Char) :
    stripNewline (l ++ ['\n']) = l := by
  simp [stripNewline, List.getLast?_concat]

/-- Reading with `fgets` from a stream starting with a short
newline-terminated record yields exactly that record (newline included). -/
theorem fgetsLine_short_record (x : List Char) :
    ∀ (n : Nat) (rest : List Char), '\n' ∉ x → x.length + 1 ≤ n →
      fgetsLine n (x ++ '\n' :: rest) = (x ++ ['\n'], rest) := by
  induction x with
  | nil =>
    intro n rest _ hn
    obtain ⟨k, rfl⟩ : ∃ k, n = k + 1 := ⟨n - 1, by omega⟩
    simp [fgetsLine]
  | cons a x' ih =>
    intro n rest hmem hn
    obtain ⟨k, rfl⟩ : ∃ k, n = k + 1 := ⟨n - 1, by omega⟩
    have ha : a ≠ '\n' := fun e => hmem (by simp [e])
    have hx' : '\n' ∉ x' := fun e => hmem (by simp [e])
    have hk : x'.length + 1 ≤ k := by
      simp only [List.length_cons] at hn
      omega
    simp [fgetsLine, ha, ih k rest hx' hk]

/-- Reading with `fgets` from a stream whose newline-free prefix is at
least `n` long yields exactly `n` characters, leaving the remainder. -/
theorem fgetsLine_long (n : Nat) :
    ∀ (l r : List Char), '\n' ∉ l → n ≤ l.length →
      fgetsLine n (l ++ r) = (l.take n, l.drop n ++ r) := by
  induction n with
  | zero =>
    intro l r _ _
    simp [fgetsLine_zero]
  | succ k ih =>
    intro l r hmem hn
    cases l with
    | nil => simp at hn
    | cons a l' =>
      have ha : a ≠ '\n' := fun e => hmem (by simp [e])
      have hmem' : '\n' ∉ l' := fun e => hmem (by simp [e])
      have hk : k ≤ l'.length := by
        simp only [List.length_cons] at hn
        omega
      simp [fgetsLine, ha, ih l' r hmem' hk, List.take_succ_cons, List.drop_succ_cons]

/-- The read loop on a file of short newline-terminated records yields
exactly those records, each with its newline. -/
theorem readLinesF_records (n : Nat) :
    ∀ (recs : List (List Char)) (fuel : Nat),
      (∀ r ∈ recs, '\n' ∉ r ∧ r.length + 1 ≤ n) →
      (joinNL recs).length ≤ fuel →
      readLinesF n fuel (joinNL recs) = recs.map (fun r => r ++ ['\n']) := by
  intro recs
  induction recs with
  | nil =>
    intro fuel _ _
    simp [joinNL, readLinesF_nil]
  | cons r t ih =>
    intro fuel h hfuel
    have hsplit : joinNL (r :: t) = r ++ '\n' :: joinNL t := by
      simp [joinNL]
    have hlen : 1 ≤ (joinNL (r :: t)).length := by
      rw [hsplit]
      simp only [List.length_append, List.length_cons]
      omega
    obtain ⟨f, rfl⟩ : ∃ f, fuel = f + 1 := ⟨fuel - 1, by omega⟩
    obtain ⟨hr1, hr2⟩ := h r (by simp)
    have hcons : ∃ c cs, joinNL (r :: t) = c :: cs := by
      rw [hsplit]
      cases r with
      | nil => exact ⟨'\n', joinNL t, rfl⟩
      | cons a r' => exact ⟨a, r' ++ '\n' :: joinNL t, by simp⟩
    obtain ⟨c, cs, hcs⟩ := hcons
    rw [hcs]
    simp only [readLinesF]
    rw [← hcs, hsplit, fgetsLine_short_record r n (joinNL t) hr1 hr2]
    have hfuel' : (joinNL t).length ≤ f := by
      rw [hsplit] at hfuel
      simp only [List.length_append, List.length_cons] at hfuel
      omega
    rw [ih f (fun y hy => h y (by simp [hy])) hfuel']
    simp

/-- One unfolding of `readLines` on a nonempty stream. -/
theorem readLines_cons (n : Nat) (c : Char) (cs : List Char) :
    readLines n (c :: cs) =
      (fgetsLine n (c :: cs)).1 ::
        readLinesF n cs.length (fgetsLine n (c :: cs)).2 := by
  rfl

/-- Claim C5: with empty RAM and a disk file holding exactly the records
`x`, `y`, `z` (short and newline-free), a successful pop returns `x` with
its trailing newline stripped and rewrites the file to hold exactly `y`
then `z`. -/
theorem disk_pop_compaction (m buf_size : Nat) (s : QState) (x y z : List Char)
    (he : is_ram_empty s = true)
    (hd : s.disk = some (joinNL [x, y, z]))
    (hx : '\n' ∉ x) (hy : '\n' ∉ y) (hz : '\n' ∉ z)
    (hlx : x.length + 1 ≤ MAX_LINE - 1) (hly : y.length + 1 ≤ MAX_LINE - 1)
    (hlz : z.length + 1 ≤ MAX_LINE - 1)
    (hb : x.length + 2 ≤ buf_size) :
    ultraqueue_pop m allOk buf_size s =
      (0, some x, { s with disk := some (joinNL [y, z]) }) := by
  have hrl : readLines (MAX_LINE - 1) (joinNL [x, y, z]) =
      [x ++ ['\n'], y ++ ['\n'], z ++ ['\n']] := by
    have hrec : ∀ r ∈ [x, y, z], '\n' ∉ r ∧ r.length + 1 ≤ MAX_LINE - 1 := by
      intro r hr
      simp only [List.mem_cons, List.not_mem_nil, or_false] at hr
      rcases hr with rfl | rfl | rfl
      · exact ⟨hx, hlx⟩
      · exact ⟨hy, hly⟩
      · exact ⟨hz, hlz⟩
    simpa [readLines] using
      readLinesF_records (MAX_LINE - 1) [x, y, z] (joinNL [x, y, z]).length hrec (le_refl _)
  have hr : pop_ram m buf_size s = (-1, none, s) := by simp [pop_ram, he]
  have htake : (x ++ ['\n']).take (buf_size - 1) = x ++ ['\n'] := by
    refine List.take_of_length_le ?_
    simp only [List.length_append, List.length_cons, List.length_nil]
    omega
  have hstrip : stripNewline ((x ++ ['\n']).take (buf_size - 1)) = x := by
    rw [htake]
    exact stripNewline_concat_newline x
  have hrl' : readLines (MAX_LINE - 1) (x ++ '\n' :: (y ++ '\n' :: (z ++ ['\n']))) =
      [x ++ ['\n'], y ++ ['\n'], z ++ ['\n']] := by
    simpa [joinNL] using hrl
  simp only [ultraqueue_pop, hr, hd, allOk]
  simp [hrl', hstrip, joinNL]

theorem disk_pop_compaction_witness :
    ultraqueue_pop 3 allOk 16
      { initQState with disk := some (joinNL [['x'], ['y'], ['z']]) } =
      (0, some ['x'], { initQState with disk := some (joinNL [['y'], ['z']]) }) :=
  disk_pop_compaction 3 16 _ ['x'] ['y'] ['z'] (by decide) rfl (by decide) (by decide)
    (by decide) (by decide) (by decide) (by decide) (by decide)

/-- One unfolding of `readLines` on any nonempty stream. -/
theorem readLines_pos (n : Nat) (d : List Char) (hd : d ≠ []) :
    readLines n d =
      (fgetsLine n d).1 :: readLinesF n (d.length - 1) (fgetsLine n d).2 := by
  cases d with
  | nil => exact absurd rfl hd
  | cons c cs => simpa using readLines_cons n c cs

/-- Claim C10: a disk record whose line is `MAX_LINE` bytes or longer
(newline-free content of at least `MAX_LINE - 1` characters) is not read
back whole: a single pop (with an ample caller buffer) returns only the
first `MAX_LINE - 1` characters, and the rewritten file starts with the
remainder of that line, which becomes the next record. -/
theorem long_line_split (m buf_size : Nat) (s : QState) (content rest : List Char)
    (he : is_ram_empty s = true)
    (hd : s.disk = some (content ++ '\n' :: rest))
    (hnc : '\n' ∉ content)
    (hlen : MAX_LINE - 1 ≤ content.length)
    (hb : MAX_LINE ≤ buf_size) :
    ultraqueue_pop m allOk buf_size s =
      (0, some (content.take (MAX_LINE - 1)),
        { s with disk := some (content.drop (MAX_LINE - 1) ++ '\n' :: rest) }) := by
  obtain ⟨c, ct, rfl⟩ : ∃ c ct, content = c :: ct := by
    cases content with
    | nil =>
      exfalso
      have h0 : MAX_LINE - 1 ≤ 0 := by simpa using hlen
      simp [MAX_LINE] at h0
    | cons c ct => exact ⟨c, ct, rfl⟩
  have hfg : fgetsLine (MAX_LINE - 1) ((c :: ct) ++ '\n' :: rest) =
      ((c :: ct).take (MAX_LINE - 1), (c :: ct).drop (MAX_LINE - 1) ++ '\n' :: rest) :=
    fgetsLine_long (MAX_LINE - 1) (c :: ct) ('\n' :: rest) hnc hlen
  have hcons : (c :: ct) ++ '\n' :: rest = c :: (ct ++ '\n' :: rest) := by simp
  have hstep : readLines (MAX_LINE - 1) (c :: (ct ++ '\n' :: rest)) =
      (c :: ct).take (MAX_LINE - 1) ::
        readLinesF (MAX_LINE - 1) (ct ++ '\n' :: rest).length
          ((c :: ct).drop (MAX_LINE - 1) ++ '\n' :: rest) := by
    rw [readLines_cons, ← hcons, hfg]
  have hflat : (readLinesF (MAX_LINE - 1) (ct ++ '\n' :: rest).length
      ((c :: ct).drop (MAX_LINE - 1) ++ '\n' :: rest)).flatten =
      (c :: ct).drop (MAX_LINE - 1) ++ '\n' :: rest := by
    have h41 : MAX_LINE - 1 = 4094 + 1 := rfl
    rw [h41]
    apply readLinesF_join
    have hlen' : 4095 ≤ (c :: ct).length := by simpa [MAX_LINE] using hlen
    simp only [List.length_append, List.length_cons, List.length_drop] at hlen' ⊢
    omega
  have hr : pop_ram m buf_size s = (-1, none, s) := by simp [pop_ram, he]
  have hbb : ((c :: ct).take (MAX_LINE - 1)).length ≤ buf_size - 1 := by
    have hb' : 4096 ≤ buf_size := by simpa [MAX_LINE] using hb
    simp only [List.length_take, List.length_cons, MAX_LINE]
    omega
  have htake : ((c :: ct).take (MAX_LINE - 1)).take (buf_size - 1) =
      (c :: ct).take (MAX_LINE - 1) := List.take_of_length_le hbb
  have hstrip : stripNewline ((c :: ct).take (MAX_LINE - 1)) =
      (c :: ct).take (MAX_LINE - 1) := by
    refine stripNewline_of_not_mem _ ?_
    intro hmem
    exact hnc (List.take_subset _ _ hmem)
  simp only [ultraqueue_pop, hr, hd, allOk]
  simp only [List.length_append, List.length_cons] at hflat
  simp [hstep, htake, hstrip, hflat]

/-- A maximal-length newline-free record. -/
def longContent : List Char := List.replicate 4095 'a'

theorem long_line_split_witness :
    ultraqueue_pop 3 allOk 4096 { initQState with disk := some (longContent ++ '\n' :: []) } =
      (0, some (longContent.take (MAX_LINE - 1)),
        { initQState with disk := some (longContent.drop (MAX_LINE - 1) ++ '\n' :: []) }) :=
  long_line_split 3 4096 _ longContent [] (by decide) rfl
    (by
      intro hmem
      simp only [longContent, List.mem_replicate] at hmem
      exact absurd hmem.2 (by decide))
    (by simp only [longContent, List.length_replicate, MAX_LINE]; omega)
    (by simp [MAX_LINE])

/-! ### Truncation lemmas -/

theorem strip_take_record (x : List Char) (j : Nat) (hx : '\n' ∉ x) :
    stripNewline ((x ++ ['\n']).take j) <+: x ∧
      (stripNewline ((x ++ ['\n']).take j)).length ≤ j := by
  rcases le_or_lt j x.length with hj | hj
  · have ht : (x ++ ['\n']).take j = x.take j := List.take_append_of_le_length hj
    have hnm : '\n' ∉ x.take j := fun hm => hx (List.take_subset _ _ hm)
    rw [ht, stripNewline_of_not_mem _ hnm]
    constructor
    · exact ⟨x.drop j, List.take_append_drop j x⟩
    · rw [List.length_take]
      exact inf_le_left
  · have ht : (x ++ ['\n']).take j = x ++ ['\n'] := by
      refine List.take_of_length_le ?_
      simp only [List.length_append, List.length_cons, List.length_nil]
      omega
    rw [ht, stripNewline_concat_newline]
    exact ⟨⟨[], List.append_nil x⟩, by omega⟩

theorem strip_take_take (x : List Char) (k j : Nat) (hx : '\n' ∉ x) :
    stripNewline ((x.take k).take j) <+: x ∧
      (stripNewline ((x.take k).take j)).length ≤ j := by
  have hsub : '\n' ∉ (x.take k).take j := fun hm =>
    hx (List.take_subset _ _ (List.take_subset _ _ hm))
  rw [stripNewline_of_not_mem _ hsub]
  constructor
  · rw [List.take_take]
    exact ⟨x.drop (j ⊓ k), List.take_append_drop _ x⟩
  · rw [List.length_take]
    exact inf_le_left

/-- Claim C8: truncation to the caller's buffer is never an error.  From
the RAM tier, a pop of the head item returns success and exactly the first
`buf_size - 1` characters of it.  From the disk tier, a pop of the first
record returns success and a prefix of the stored item that fits in
`buf_size - 1` characters (the prefix may additionally be capped at
`MAX_LINE - 1` characters by the line buffer, claim C10). -/
theorem pop_truncation (m buf_size : Nat) (_hb : 1 ≤ buf_size) :
    (∀ (s : QState) (item : List Char),
      is_ram_empty s = false →
      s.ram_buffer s.ram_start = some item →
      ∀ fx, (ultraqueue_pop m fx buf_size s).1 = 0 ∧
        (ultraqueue_pop m fx buf_size s).2.1 = some (item.take (buf_size - 1)) ∧
        item.take (buf_size - 1) <+: item ∧
        (item.take (buf_size - 1)).length ≤ buf_size - 1) ∧
    (∀ (s : QState) (item rest : List Char),
      is_ram_empty s = true →
      s.disk = some (item ++ '\n' :: rest) →
      '\n' ∉ item →
      (ultraqueue_pop m allOk buf_size s).1 = 0 ∧
      ∃ o, (ultraqueue_pop m allOk buf_size s).2.1 = some o ∧
        o <+: item ∧ o.length ≤ buf_size - 1) := by
  constructor
  · intro s item hne hit fx
    have hp : pop_ram m buf_size s =
        (0, some (item.take (buf_size - 1)),
          { s with
            ram_buffer := fun i => if i = s.ram_start then none else s.ram_buffer i,
            ram_start := (s.ram_start + 1) % m }) := by
      simp [pop_ram, hne, hit]
    refine ⟨?_, ?_, ?_, ?_⟩
    · simp [ultraqueue_pop, hp]
    · simp [ultraqueue_pop, hp]
    · exact ⟨item.drop (buf_size - 1), List.take_append_drop _ item⟩
    · rw [List.length_take]
      exact inf_le_left
  · intro s item rest he hd hni
    have hdne : (item ++ '\n' :: rest) ≠ [] := by simp
    have hr : pop_ram m buf_size s = (-1, none, s) := by simp [pop_ram, he]
    rcases Nat.lt_or_ge item.length (MAX_LINE - 1) with hshort | hlong
    · have hlen1 : item.length + 1 ≤ MAX_LINE - 1 := by omega
      have hfg := fgetsLine_short_record item (MAX_LINE - 1) rest hni hlen1
      have hlines := readLines_pos (MAX_LINE - 1) (item ++ '\n' :: rest) hdne
      rw [hfg] at hlines
      obtain ⟨hpre, hlen⟩ := strip_take_record item (buf_size - 1) hni
      have hout : (ultraqueue_pop m allOk buf_size s).1 = 0 ∧
          (ultraqueue_pop m allOk buf_size s).2.1 =
            some (stripNewline ((item ++ ['\n']).take (buf_size - 1))) := by
        simp only [ultraqueue_pop, hr, hd, allOk]
        rw [hlines]
        simp
      exact ⟨hout.1, _, hout.2, hpre, hlen⟩
    · have hfg := fgetsLine_long (MAX_LINE - 1) item ('\n' :: rest) hni hlong
      have hlines := readLines_pos (MAX_LINE - 1) (item ++ '\n' :: rest) hdne
      rw [hfg] at hlines
      obtain ⟨hpre, hlen⟩ := strip_take_take item (MAX_LINE - 1) (buf_size - 1) hni
      have hout : (ultraqueue_pop m allOk buf_size s).1 = 0 ∧
          (ultraqueue_pop m allOk buf_size s).2.1 =
            some (stripNewline ((item.take (MAX_LINE - 1)).take (buf_size - 1))) := by
        simp only [ultraqueue_pop, hr, hd, allOk]
        rw [hlines]
        simp
      exact ⟨hout.1, _, hout.2, hpre, hlen⟩

theorem pop_truncation_witness :
    (ultraqueue_pop 3 allOk 2 sFull3).1 = 0 ∧
    (ultraqueue_pop 3 allOk 2 sFull3).2.1 = some (['a'].take (2 - 1)) ∧
    ['a'].take (2 - 1) <+: ['a'] ∧ (['a'].take (2 - 1)).length ≤ 2 - 1 :=
  (pop_truncation 3 2 (by decide)).1 sFull3 ['a'] (by decide) rfl allOk

/-! ### Ring-buffer invariant lemmas -/

theorem ramCount_le (m : Nat) (hm : 1 ≤ m) (s : QState) : ramCount m s ≤ m - 1 := by
  have h : ramCount m s < m := Nat.mod_lt _ (by omega)
  omega

theorem is_ram_empty_iff_count (m : Nat) (s : QState) (h : RamInv m s) :
    is_ram_empty s = true ↔ ramCount m s = 0 := by
  obtain ⟨h1, h2⟩ := h
  constructor
  · intro he
    have hse : s.ram_start = s.ram_end := by simpa [is_ram_empty] using he
    simp only [ramCount, hse]
    rw [show s.ram_end + m - s.ram_end = m by omega, Nat.mod_self]
  · intro hc
    by_contra hne
    have hne' : s.ram_start ≠ s.ram_end := by simpa [is_ram_empty] using hne
    have hdvd : m ∣ (s.ram_end + m - s.ram_start) := Nat.dvd_of_mod_eq_zero hc
    obtain ⟨q, hq⟩ := hdvd
    rcases q with _ | q
    · omega
    rcases q with _ | q
    · omega
    · have hmul : m * 2 ≤ m * (q + 1 + 1) := Nat.mul_le_mul_left m (by omega)
      omega

theorem is_ram_full_iff_count (m : Nat) (s : QState) (h : RamInv m s) :
    is_ram_full m s = true ↔ ramCount m s = m - 1 := by
  obtain ⟨h1, h2⟩ := h
  have hfb : is_ram_full m s = true ↔ (s.ram_end + 1) % m = s.ram_start := by
    simp [is_ram_full]
  rw [hfb]
  rcases le_or_lt s.ram_start s.ram_end with hle | hlt
  · have hcnt : ramCount m s = s.ram_end - s.ram_start := by
      have harr : s.ram_end + m - s.ram_start = (s.ram_end - s.ram_start) + m := by omega
      simp only [ramCount, harr, Nat.add_mod_right]
      exact Nat.mod_eq_of_lt (by omega)
    rw [hcnt]
    rcases Nat.lt_or_ge (s.ram_end + 1) m with he1 | he1
    · rw [Nat.mod_eq_of_lt he1]
      omega
    · have hem : s.ram_end + 1 = m := by omega
      rw [hem, Nat.mod_self]
      omega
  · have hcnt : ramCount m s = s.ram_end + m - s.ram_start := by
      simp only [ramCount]
      exact Nat.mod_eq_of_lt (by omega)
    rw [hcnt, Nat.mod_eq_of_lt (show s.ram_end + 1 < m by omega)]
    omega

theorem push_ram_inv (m : Nat) (hm : 1 ≤ m) (item : List Char) (s : QState)
    (h : RamInv m s) : RamInv m (push_ram m item s).2 := by
  by_cases hf : is_ram_full m s = true
  · simpa [push_ram, hf] using h
  · simp only [push_ram, hf, Bool.false_eq_true, if_false]
    exact ⟨h.1, Nat.mod_lt _ (by omega)⟩

theorem spillLoop_inv (m : Nat) (hm : 1 ≤ m) (fx : SpillFx) :
    ∀ (n j : Nat) (s : QState), RamInv m s → RamInv m (spillLoop m fx j n s).2 := by
  intro n
  induction n with
  | zero =>
    intro j s h
    simp only [spillLoop, RamInv]
    exact ⟨by omega, by omega⟩
  | succ k ih =>
    intro j s h
    simp only [spillLoop]
    by_cases hp : fx = SpillFx.putsFail j
    · simpa [hp] using h
    · rw [if_neg hp]
      by_cases hq : fx = SpillFx.putcFail j
      · simpa [hq] using h
      · rw [if_neg hq]
        exact ih (j + 1) _ ⟨Nat.mod_lt _ (by omega), h.2⟩

theorem spill_to_disk_inv (m : Nat) (hm : 1 ≤ m) (fx : SpillFx) (s : QState)
    (h : RamInv m s) : RamInv m (spill_to_disk m fx s).2 := by
  by_cases ho : fx = SpillFx.openFail
  · simpa [spill_to_disk, ho] using h
  · simp only [spill_to_disk, ho, if_false]
    exact spillLoop_inv m hm fx _ 0 _ ⟨h.1, h.2⟩

theorem ultraqueue_push_inv (m : Nat) (hm : 1 ≤ m) (fx : SpillFx) (item : List Char)
    (s : QState) (h : RamInv m s) : RamInv m (ultraqueue_push m fx item s).2 := by
  by_cases hf : is_ram_full m s = true
  · have hr : push_ram m item s = (-1, s) := by simp [push_ram, hf]
    by_cases hsp : (spill_to_disk m fx s).1 ≠ 0
    · have heq : ultraqueue_push m fx item s = spill_to_disk m fx s := by
        simp [ultraqueue_push, hr, hsp]
      rw [heq]
      exact spill_to_disk_inv m hm fx s h
    · have heq : ultraqueue_push m fx item s =
          push_ram m item (spill_to_disk m fx s).2 := by
        simp [ultraqueue_push, hr, hsp]
      rw [heq]
      exact push_ram_inv m hm item _ (spill_to_disk_inv m hm fx s h)
  · have heq : ultraqueue_push m fx item s = push_ram m item s := by
      simp [ultraqueue_push, push_ram, hf]
    rw [heq]
    exact push_ram_inv m hm item s h

theorem ultraqueue_pop_inv (m : Nat) (hm : 1 ≤ m) (fx : PopFx) (buf_size : Nat)
    (s : QState) (h : RamInv m s) : RamInv m (ultraqueue_pop m fx buf_size s).2.2 := by
  by_cases he : is_ram_empty s = true
  · have hr : pop_ram m buf_size s = (-1, none, s) := by simp [pop_ram, he]
    cases hd : s.disk with
    | none => simpa [ultraqueue_pop, hr, hd, RamInv] using h
    | some d =>
      cases hro : fx.openReadOk with
      | false => simpa [ultraqueue_pop, hr, hd, hro, RamInv] using h
      | true =>
        cases htp : fx.tmpfileOk with
        | false => simpa [ultraqueue_pop, hr, hd, hro, htp, RamInv] using h
        | true =>
          cases hl : readLines (MAX_LINE - 1) d with
          | nil =>
            cases hw : fx.openWriteOk with
            | false => simpa [ultraqueue_pop, hr, hd, hro, htp, hl, hw, RamInv] using h
            | true => simpa [ultraqueue_pop, hr, hd, hro, htp, hl, hw, RamInv] using h
          | cons f rest =>
            cases hw : fx.openWriteOk with
            | false => simpa [ultraqueue_pop, hr, hd, hro, htp, hl, hw, RamInv] using h
            | true => simpa [ultraqueue_pop, hr, hd, hro, htp, hl, hw, RamInv] using h
  · have hne : is_ram_empty s = false := by simpa using he
    have heq : (ultraqueue_pop m fx buf_size s).2.2 =
        { s with
          ram_buffer := fun i => if i = s.ram_start then none else s.ram_buffer i,
          ram_start := (s.ram_start + 1) % m } := by
      simp [ultraqueue_pop, pop_ram, hne]
    rw [heq]
    exact ⟨Nat.mod_lt _ (by omega), h.2⟩

/-- Claim C7: both mutating operations preserve the circular-buffer
invariant that the cursors stay below the modulus (`ultraqueue_len` reads
the state without mutating it); under that invariant `head == tail` holds
exactly when the RAM tier's occupancy is zero, `(tail+1) mod capacity ==
head` holds exactly when the occupancy is `capacity - 1` (full), and the
RAM tier never holds more than `capacity - 1` items. -/
theorem ring_invariant (m : Nat) (hm : 1 ≤ m) (s : QState) (h : RamInv m s) :
    (∀ fx item, RamInv m (ultraqueue_push m fx item s).2) ∧
    (∀ fx buf_size, RamInv m (ultraqueue_pop m fx buf_size s).2.2) ∧
    (is_ram_empty s = true ↔ ramCount m s = 0) ∧
    (is_ram_full m s = true ↔ ramCount m s = m - 1) ∧
    ramCount m s ≤ m - 1 :=
  ⟨fun fx item => ultraqueue_push_inv m hm fx item s h,
   fun fx buf_size => ultraqueue_pop_inv m hm fx buf_size s h,
   is_ram_empty_iff_count m s h,
   is_ram_full_iff_count m s h,
   ramCount_le m hm s⟩

theorem ring_invariant_witness :
    RamInv 3 (ultraqueue_push 3 SpillFx.ok ['a'] initQState).2 :=
  (ring_invariant 3 (by decide) initQState ⟨by decide, by decide⟩).1 SpillFx.ok ['a']
